import Mathlib

/-!
Verification of the Repo-Analyzer web frontend (TypeScript sources)
against its natural-language specification.

The development shallowly embeds the parts of the code the claims are
about:

* the SSE stream-processing loop of `handleSubmit` in the chat
  interface (accumulation of `content` deltas, `citation` pushes, the
  `risk` assignment, the `[DONE]` sentinel `break`, and the fact that
  the `throw` on an `error` chunk is caught by the inner `catch` that
  guards `JSON.parse`);
* the rendering structure of `MessageBubble` / `MessageContent`
  (code-fence splitting, citation chips, the trailing risk block);
* `loadRepositories` of the chat page (filter on `status === 'ready'`);
* `deleteRepo` of the repositories page;
* `getLanguageFromFile` and `countNodes` of the visualizer page.
-/

/-- A citation attached to an assistant message
(`{ file: string; lines: string }` in `ChatInterface.tsx`). -/
structure Citation where
  file : String
  lines : String
deriving Repr, DecidableEq

/-- Risk level of the final risk verdict (`'low' | 'medium' | 'high'`). -/
inductive RiskLevel where
  | low
  | medium
  | high
deriving Repr, DecidableEq

/-- Risk verdict of a turn (`{ level; description }`). -/
structure Risk where
  level : RiskLevel
  description : String
deriving Repr, DecidableEq

/-- The fields of a chat `Message` the streaming loop updates.
`citations` is `Option` because the TypeScript field is optional and is
only initialised on the first citation event; `id`, `role` and
`timestamp` play no part in any claim. -/
structure Message where
  content : String
  citations : Option (List Citation)
  risk : Option Risk
deriving Repr, DecidableEq

/-- A parsed streaming chunk (`chunk.type` dispatch in `handleSubmit`). -/
inductive StreamEvent where
  | content (s : String)
  | citation (c : Citation)
  | risk (r : Risk)
  | error (s : String)
deriving Repr, DecidableEq

/-- One line of the SSE body as the loop classifies it:
the `[DONE]` sentinel, a `data:` line whose JSON parses to a chunk, a
`data:` line whose JSON parse throws, or a line without the `data: `
prefix. -/
inductive DataLine where
  | done
  | event (e : StreamEvent)
  | malformed
  | nondata
deriving Repr, DecidableEq

/-- Effect of one parsed chunk on the assistant message, as in the
`if/else` chain of `handleSubmit`:

* `content` appends the delta to `content`;
* `citation` initialises `citations` to `[]` when absent and pushes;
* `risk` assigns the `risk` field;
* `error` executes `throw new Error(chunk.content)` — but that `throw`
  sits inside the `try` whose `catch (e)` only logs
  (`console.error('Error parsing chunk:', e)`), so the exception is
  swallowed and the message is left unchanged. -/
def applyEvent : StreamEvent → Message → Message
  | .content s, m => { m with content := m.content ++ s }
  | .citation c, m =>
    match m.citations with
    | none => { m with citations := some [c] }
    | some l => { m with citations := some (l ++ [c]) }
  | .risk r, m => { m with risk := some r }
  | .error _, m => m

/-- The `for (const line of lines)` loop over one decoded read.
`[DONE]` executes `break`, which abandons the remaining lines of this
read only; malformed JSON and non-`data:` lines are skipped. -/
def processLines : List DataLine → Message → Message
  | [], m => m
  | .done :: _, m => m
  | .event e :: rest, m => processLines rest (applyEvent e m)
  | .malformed :: rest, m => processLines rest m
  | .nondata :: rest, m => processLines rest m

/-- The `while (true)` read loop: each `reader.read()` yields one list
of decoded lines, and the loop continues with the next read after the
inner `for` loop finishes (or `break`s on `[DONE]`). -/
def processStream : List (List DataLine) → Message → Message
  | [], m => m
  | read :: rest, m => processStream rest (processLines read m)

/-- The freshly pushed assistant message (`content: ''`, no citations,
no risk). -/
def initialAssistantMessage : Message :=
  { content := "", citations := none, risk := none }

/-- The fallback message appended by the outer `catch` of
`handleSubmit`. -/
def errorFallbackMessage : Message :=
  { content := "Sorry, I encountered an error processing your request. Please try again.",
    citations := none, risk := none }

/-- Outcome of one turn of `handleSubmit`: when the fetch fails, the
response is not ok, the body is missing, or a `reader.read()` rejects,
the outer `catch` replaces the turn with `errorFallbackMessage`;
otherwise the assistant message is the result of processing the
stream.  Note that an `error` *event* never reaches the outer `catch`
(see `applyEvent`), so `networkOk` is the only way to the fallback. -/
def handleSubmitOutcome (networkOk : Bool) (reads : List (List DataLine)) : Message :=
  if networkOk then processStream reads initialAssistantMessage
  else errorFallbackMessage

/-- The delta carried by a `content` line, if any. -/
def deltaOf : DataLine → Option String
  | .event (.content s) => some s
  | _ => none

/-- Concatenation, in order, of the `content` deltas of a line list. -/
def concatDeltas (ls : List DataLine) : String :=
  ls.foldr (fun l acc => match deltaOf l with
    | some s => s ++ acc
    | none => acc) ""

/-- Is this line a `citation` chunk? -/
def isCitationLine : DataLine → Bool
  | .event (.citation _) => true
  | _ => false

/-- The fields of a `Repository` the claims touch (`id`, `name`,
`status`); `description`, `url`, file counts etc. play no part. -/
structure Repository where
  id : Int
  name : String
  status : String
deriving Repr, DecidableEq

/-- `loadRepositories` of the chat page: from the server's list it
keeps `data.filter((r) => r.status === 'ready')` and offers exactly
those (`setRepos(readyRepos)`). -/
def loadRepositories (data : List Repository) : List Repository :=
  data.filter (fun r => r.status == "ready")

/-- `deleteRepo` of the repositories page: when the DELETE request
succeeds (`response.ok`) the state becomes
`repos.filter(r => r.id !== repoId)`; otherwise only an alert is shown
and the list is untouched. -/
def deleteRepo (repoId : Int) (success : Bool) (repos : List Repository) :
    List Repository :=
  if success then repos.filter (fun r => !(r.id == repoId)) else repos

/-- The fixed `extMap` of `getLanguageFromFile` in the visualizer page,
in source order. -/
def extMap : List (String × String) :=
  [("ts", "typescript"), ("tsx", "typescript"),
   ("js", "javascript"), ("jsx", "javascript"),
   ("py", "python"), ("rs", "rust"), ("go", "go"), ("java", "java"),
   ("css", "css"), ("html", "html"), ("json", "json"), ("md", "markdown")]

/-- `filename.split('.')` on the character list: JavaScript split on a
single-character separator (an empty string yields `[""]`, a trailing
dot yields a final empty segment). -/
def splitOnDot : List Char → List (List Char)
  | [] => [[]]
  | c :: rest =>
    if c = '.' then [] :: splitOnDot rest
    else
      match splitOnDot rest with
      | [] => [[c]]
      | h :: t => (c :: h) :: t

/-- `filename.split('.').pop()?.toLowerCase()` with the `ext || ''`
fallback: the last dot-separated segment, lowercased. -/
def extOf (filename : String) : String :=
  String.mk (((splitOnDot filename.data).getLastD []).map Char.toLower)

/-- `getLanguageFromFile`: `'text'` for a missing (or falsy, i.e.
empty) filename, otherwise the `extMap` entry of the extension,
defaulting to `'text'` (`extMap[ext || ''] || 'text'`). -/
def getLanguageFromFile (filename : Option String) : String :=
  match filename with
  | none => "text"
  | some f =>
    if f = "" then "text"
    else ((extMap.lookup (extOf f)).getD "text")

/-- `type: 'file' | 'folder'` of a `TreeNode`. -/
inductive NodeType where
  | file
  | folder
deriving Repr, DecidableEq

/-- A visualizer `TreeNode` (`name`, `type`, optional `children`; an
absent children array is the empty list, `path`/`size`/`language` are
irrelevant to the claims). -/
inductive TreeNode where
  | node (name : String) (type : NodeType) (children : List TreeNode)
deriving Repr

mutual

/-- `countNodes` of the visualizer page: a `file` node counts as
`{files: 1, folders: 0}` (its children, if any, are never visited); any
other node starts `folders` at 1 and accumulates over `children`. -/
def countNodes : TreeNode → Nat × Nat
  | .node _ .file _ => (1, 0)
  | .node _ .folder ch => countChildren ch 0 1

/-- The `node.children?.forEach` accumulation of `countNodes`:
`files += counts.files; folders += counts.folders`. -/
def countChildren : List TreeNode → Nat → Nat → Nat × Nat
  | [], files, folders => (files, folders)
  | c :: cs, files, folders =>
    countChildren cs (files + (countNodes c).1) (folders + (countNodes c).2)

end

mutual

/-- All nodes of a tree, root included. -/
def allNodes : TreeNode → List TreeNode
  | .node n t ch => .node n t ch :: allNodesList ch

/-- All nodes of a forest. -/
def allNodesList : List TreeNode → List TreeNode
  | [] => []
  | c :: cs => allNodes c ++ allNodesList cs

end

/-- Is the node's `type` the literal `'file'`? -/
def isFileNode : TreeNode → Bool
  | .node _ .file _ => true
  | .node _ .folder _ => false

mutual

/-- Well-formedness of a file tree: nodes of type `'file'` carry no
children (as in every tree the backend or the demo data produces). -/
def filesAreLeaves : TreeNode → Bool
  | .node _ .file ch => ch.isEmpty
  | .node _ .folder ch => leavesList ch

/-- `filesAreLeaves` over a forest. -/
def leavesList : List TreeNode → Bool
  | [] => true
  | c :: cs => filesAreLeaves c && leavesList cs

end

/-- Does this character list start with a triple backtick? -/
def isFenceHead (l : List Char) : Bool :=
  l.take 3 == ['`', '`', '`']

/-- Leftmost occurrence of ```` ``` ````: splits `l` as `pre ++ suf`
with `suf` the first suffix starting with a triple backtick. -/
def findOpen : List Char → Option (List Char × List Char)
  | [] => none
  | c :: rest =>
    if isFenceHead (c :: rest) then some ([], c :: rest)
    else
      match findOpen rest with
      | none => none
      | some (p, s) => some (c :: p, s)

/-- Leftmost match of the lazy regex `` ```[\s\S]*?``` `` of
`MessageContent`: an opening triple backtick, the shortest body, and
the next triple backtick.  Returns `(before, match, after)`. -/
def findMatch (l : List Char) : Option (List Char × List Char × List Char) :=
  match findOpen l with
  | none => none
  | some (pre, suf) =>
    match findOpen (suf.drop 3) with
    | none => none
    | some (mid, suf2) =>
      some (pre, ['`', '`', '`'] ++ mid ++ ['`', '`', '`'], suf2.drop 3)

/-- `content.split(/(```[\s\S]*?```)/g)` on the character list: the
captured fence matches are kept between the surrounding pieces, so the
parts cover the whole input.  The fuel argument (each match consumes at
least six characters) makes the recursion structural. -/
def splitFencesAux : Nat → List Char → List (List Char)
  | 0, l => [l]
  | fuel + 1, l =>
    match findMatch l with
    | none => [l]
    | some (pre, m, post) => pre :: m :: splitFencesAux fuel post

/-- The `parts` computed by `MessageContent` from the message text. -/
def splitCodeFences (s : String) : List String :=
  (splitFencesAux s.data.length s.data).map (fun cs => String.mk cs)

/-- In-order concatenation of a list of parts. -/
def concatParts (parts : List String) : String :=
  parts.foldr (fun a b => a ++ b) ""

/-- JavaScript word characters, as matched by `\w`. -/
def isWordChar (c : Char) : Bool :=
  ('a' ≤ c && c ≤ 'z') || ('A' ≤ c && c ≤ 'Z') || ('0' ≤ c && c ≤ '9') || c = '_'

/-- The match of `` /```(\w+)?\n?([\s\S]*?)```/ `` against a part, as
`CodeBlock` rendering uses it: the optional language word after the
opening fence and the (lazy) body up to the next fence.  `none` when
the part has no such match. -/
def parseFenceBlock (l : List Char) : Option (Option (List Char) × List Char) :=
  match findOpen l with
  | none => none
  | some (_, suf) =>
    match suf with
    | '`' :: '`' :: '`' :: tail =>
      let langChars := tail.takeWhile isWordChar
      let rest := tail.dropWhile isWordChar
      let rest2 := match rest with
        | '\n' :: r => r
        | r => r
      match findOpen rest2 with
      | none => none
      | some (body, _) =>
        some ((if langChars.isEmpty then none else some langChars), body)
    | _ => none

/-- A rendered block of a `MessageBubble`: a plain paragraph, a
`CodeBlock`, a `FileReference` chip, or the `RiskAnalysis` block. -/
inductive Block where
  | para (text : String)
  | code (language : String) (code : String)
  | fileRef (file : String) (lines : String)
  | riskBlock (level : RiskLevel) (description : String)
deriving Repr, DecidableEq

/-- Rendering of one part by `MessageContent`: a part starting with
```` ``` ```` that matches the code-block regex becomes a `CodeBlock`
with `code.trim()` and `language || 'text'`; everything else is a
paragraph. -/
def renderPart (p : String) : Block :=
  if p.startsWith "```" then
    match parseFenceBlock p.data with
    | some (lang, body) =>
      .code (match lang with
             | some cs => String.mk cs
             | none => "text")
            (String.mk body).trim
    | none => .para p
  else .para p

/-- `MessageContent`: split on code fences, render each part. -/
def renderContent (content : String) : List Block :=
  (splitCodeFences content).map renderPart

/-- The citations row of `MessageBubble`: rendered only when
`message.citations && message.citations.length > 0`. -/
def renderCitations : Option (List Citation) → List Block
  | none => []
  | some l => if l.length > 0 then l.map (fun c => .fileRef c.file c.lines) else []

/-- The risk block of `MessageBubble`: rendered only when
`message.risk` is set. -/
def renderRisk : Option Risk → List Block
  | none => []
  | some r => [.riskBlock r.level r.description]

/-- The full block sequence of a `MessageBubble`, in JSX order: message
content, then the citations row, then the risk analysis. -/
def renderMessageBubble (m : Message) : List Block :=
  renderContent m.content ++ renderCitations m.citations ++ renderRisk m.risk

/-- Is this block the `RiskAnalysis` block? -/
def isRiskBlock : Block → Bool
  | .riskBlock _ _ => true
  | _ => false

/-- Is this block a `FileReference` chip? -/
def isFileRefBlock : Block → Bool
  | .fileRef _ _ => true
  | _ => false

/-! ### Concrete sample values used by witnesses -/

/-- A sample indexed repository. -/
def sampleReadyRepo : Repository :=
  { id := 1, name := "repo-analyzer", status := "ready" }

/-- A sample repository still being indexed. -/
def sampleIndexingRepo : Repository :=
  { id := 2, name := "other", status := "indexing" }

/-- A file node with a folder child: representable in the `TreeNode`
type, but never traversed below the file by `countNodes`. -/
def cexFileTree : TreeNode :=
  .node "a" .file [.node "b" .folder []]

/-- A small well-formed tree (files are leaves): two files, two
folders. -/
def sampleTree : TreeNode :=
  .node "r" .folder [.node "a" .file [], .node "d" .folder [.node "b" .file []]]

/-! ### Helper lemmas -/

/-- Only `content` chunks touch the `content` field. -/
lemma applyEvent_content (e : StreamEvent) (m : Message) :
    (applyEvent e m).content =
      match e with
      | .content s => m.content ++ s
      | _ => m.content := by
  cases e with
  | content s => rfl
  | citation c => cases h : m.citations <;> simp [applyEvent, h]
  | risk r => rfl
  | error s => rfl

/-- No chunk other than `citation` touches the `citations` field. -/
lemma applyEvent_citations_of_not_citation (e : StreamEvent) (m : Message)
    (h : ∀ c, e ≠ .citation c) :
    (applyEvent e m).citations = m.citations := by
  cases e with
  | content s => rfl
  | citation c => exact absurd rfl (h c)
  | risk r => rfl
  | error s => rfl

/-- The `break` on `[DONE]` discards the rest of the current read's
lines: lines after the first sentinel of a read never matter. -/
lemma processLines_append_done (pre suf : List DataLine) (m : Message) :
    processLines (pre ++ DataLine.done :: suf) m = processLines pre m := by
  induction pre generalizing m with
  | nil => rfl
  | cons l rest ih =>
    cases l with
    | done => rfl
    | event e => simpa [processLines] using ih (applyEvent e m)
    | malformed => simpa [processLines] using ih m
    | nondata => simpa [processLines] using ih m

/-- Reads are processed one after the other. -/
lemma processStream_append (a b : List (List DataLine)) (m : Message) :
    processStream (a ++ b) m = processStream b (processStream a m) := by
  induction a generalizing m with
  | nil => rfl
  | cons r rest ih => simpa [processStream] using ih (processLines r m)

/-- In a read without the sentinel, every chunk is applied and the
accumulated `content` grows by exactly the concatenated deltas. -/
lemma processLines_content_of_no_done (ls : List DataLine) (m : Message)
    (h : DataLine.done ∉ ls) :
    (processLines ls m).content = m.content ++ concatDeltas ls := by
  induction ls generalizing m with
  | nil => simp [processLines, concatDeltas]
  | cons l rest ih =>
    have hl : l ≠ DataLine.done := fun he => h (he ▸ List.mem_cons_self l rest)
    have hrest : DataLine.done ∉ rest := fun he => h (List.mem_cons_of_mem l he)
    cases l with
    | done => exact absurd rfl hl
    | event e =>
      cases e with
      | content s =>
        simp [processLines, ih _ hrest, applyEvent, concatDeltas, deltaOf,
          String.append_assoc]
      | citation c =>
        have : (applyEvent (.citation c) m).content = m.content :=
          applyEvent_content _ m
        simp [processLines, ih _ hrest, concatDeltas, deltaOf, this]
      | risk r =>
        simp [processLines, ih _ hrest, applyEvent, concatDeltas, deltaOf]
      | error s =>
        simp [processLines, ih _ hrest, applyEvent, concatDeltas, deltaOf]
    | malformed => simp [processLines, ih _ hrest, concatDeltas, deltaOf]
    | nondata => simp [processLines, ih _ hrest, concatDeltas, deltaOf]

/-- `concatDeltas` distributes over append. -/
lemma concatDeltas_append (a b : List DataLine) :
    concatDeltas (a ++ b) = concatDeltas a ++ concatDeltas b := by
  induction a with
  | nil => simp [concatDeltas, String.empty_append]
  | cons l rest ih =>
    cases hl : deltaOf l with
    | none =>
      show (match deltaOf l with
            | some s => s ++ concatDeltas (rest ++ b)
            | none => concatDeltas (rest ++ b)) = _
      rw [hl, ih]
      show concatDeltas rest ++ concatDeltas b =
        (match deltaOf l with
         | some s => s ++ concatDeltas rest
         | none => concatDeltas rest) ++ concatDeltas b
      rw [hl]
    | some s =>
      show (match deltaOf l with
            | some s => s ++ concatDeltas (rest ++ b)
            | none => concatDeltas (rest ++ b)) = _
      rw [hl, ih]
      show s ++ (concatDeltas rest ++ concatDeltas b) =
        (match deltaOf l with
         | some s => s ++ concatDeltas rest
         | none => concatDeltas rest) ++ concatDeltas b
      rw [hl, String.append_assoc]

/-- Over a sentinel-free sequence of reads, the accumulated `content`
is the in-order concatenation of all deltas. -/
lemma processStream_content_of_no_done (reads : List (List DataLine)) (m : Message)
    (h : ∀ r ∈ reads, DataLine.done ∉ r) :
    (processStream reads m).content = m.content ++ concatDeltas reads.flatten := by
  induction reads generalizing m with
  | nil => simp [processStream, concatDeltas, String.append_empty]
  | cons r rest ih =>
    have h1 : DataLine.done ∉ r := h r (List.mem_cons_self r rest)
    have h2 : ∀ x ∈ rest, DataLine.done ∉ x := fun x hx => h x (List.mem_cons_of_mem r hx)
    calc (processStream (r :: rest) m).content
        = (processStream rest (processLines r m)).content := rfl
      _ = (processLines r m).content ++ concatDeltas rest.flatten := ih _ h2
      _ = m.content ++ concatDeltas r ++ concatDeltas rest.flatten := by
          rw [processLines_content_of_no_done r m h1]
      _ = m.content ++ concatDeltas ((r :: rest).flatten) := by
          simp [List.flatten_cons, concatDeltas_append, String.append_assoc]

/-- A read without citation chunks leaves the `citations` field
alone. -/
lemma processLines_citations_of_no_citation (ls : List DataLine) (m : Message)
    (h : ls.all (fun l => !isCitationLine l) = true) :
    (processLines ls m).citations = m.citations := by
  induction ls generalizing m with
  | nil => rfl
  | cons l rest ih =>
    have h1 : isCitationLine l = false := by
      have := (List.all_eq_true.mp h) l (List.mem_cons_self l rest)
      simpa using this
    have h2 : rest.all (fun l => !isCitationLine l) = true := by
      refine List.all_eq_true.mpr fun x hx => ?_
      exact (List.all_eq_true.mp h) x (List.mem_cons_of_mem l hx)
    cases l with
    | done => rfl
    | event e =>
      cases e with
      | content s => simp [processLines, ih _ h2, applyEvent]
      | citation c => simp [isCitationLine] at h1
      | risk r => simp [processLines, ih _ h2, applyEvent]
      | error s => simp [processLines, ih _ h2, applyEvent]
    | malformed => simpa [processLines] using ih _ h2
    | nondata => simpa [processLines] using ih _ h2

/-- A stream without citation chunks leaves the `citations` field
alone. -/
lemma processStream_citations_of_no_citation (reads : List (List DataLine)) (m : Message)
    (h : reads.all (fun r => r.all (fun l => !isCitationLine l)) = true) :
    (processStream reads m).citations = m.citations := by
  induction reads generalizing m with
  | nil => rfl
  | cons r rest ih =>
    have h1 : r.all (fun l => !isCitationLine l) = true :=
      (List.all_eq_true.mp h) r (List.mem_cons_self r rest)
    have h2 : rest.all (fun r => r.all (fun l => !isCitationLine l)) = true := by
      refine List.all_eq_true.mpr fun x hx => ?_
      exact (List.all_eq_true.mp h) x (List.mem_cons_of_mem r hx)
    calc (processStream (r :: rest) m).citations
        = (processStream rest (processLines r m)).citations := rfl
      _ = (processLines r m).citations := ih _ h2
      _ = m.citations := processLines_citations_of_no_citation r m h1

/-- `MessageContent` renders only paragraphs and code blocks. -/
lemma renderPart_not_fileRef (p : String) : isFileRefBlock (renderPart p) = false := by
  unfold renderPart
  by_cases h : p.startsWith "```" = true
  · simp only [h, if_true]
    cases parseFenceBlock p.data with
    | none => simp [isFileRefBlock]
    | some v => cases v with
      | mk lang body => cases lang <;> simp [isFileRefBlock]
  · simp [h, isFileRefBlock]

/-- `MessageContent` never renders the risk block. -/
lemma renderPart_not_risk (p : String) : isRiskBlock (renderPart p) = false := by
  unfold renderPart
  by_cases h : p.startsWith "```" = true
  · simp only [h, if_true]
    cases parseFenceBlock p.data with
    | none => simp [isRiskBlock]
    | some v => cases v with
      | mk lang body => cases lang <;> simp [isRiskBlock]
  · simp [h, isRiskBlock]

/-- No `FileReference` chip in the rendered message content. -/
lemma renderContent_no_fileRef (s : String) :
    (renderContent s).all (fun b => !isFileRefBlock b) = true := by
  refine List.all_eq_true.mpr fun b hb => ?_
  rcases List.mem_map.mp hb with ⟨p, _, rfl⟩
  simp [renderPart_not_fileRef]

/-- No risk block in the rendered message content. -/
lemma renderContent_no_risk (s : String) :
    (renderContent s).all (fun b => !isRiskBlock b) = true := by
  refine List.all_eq_true.mpr fun b hb => ?_
  rcases List.mem_map.mp hb with ⟨p, _, rfl⟩
  simp [renderPart_not_risk]

/-- No risk block among the citation chips. -/
lemma renderCitations_no_risk (c : Option (List Citation)) :
    (renderCitations c).all (fun b => !isRiskBlock b) = true := by
  cases c with
  | none => rfl
  | some l =>
    by_cases h : l.length > 0
    · have : renderCitations (some l) = l.map (fun c => .fileRef c.file c.lines) := by
        simp [renderCitations, h]
      rw [this]
      refine List.all_eq_true.mpr fun b hb => ?_
      rcases List.mem_map.mp hb with ⟨p, _, rfl⟩
      simp [isRiskBlock]
    · simp [renderCitations, h]

/-- `findOpen` splits its input. -/
lemma findOpen_append (l p s : List Char) (h : findOpen l = some (p, s)) :
    p ++ s = l := by
  induction l generalizing p with
  | nil => simp [findOpen] at h
  | cons c rest ih =>
    by_cases hf : isFenceHead (c :: rest) = true
    · simp [findOpen, hf] at h
      simp [h.1.symm, h.2.symm]
    · simp [findOpen, hf] at h
      cases hr : findOpen rest with
      | none => simp [hr] at h
      | some v =>
        cases v with
        | mk p' s' =>
          simp [hr] at h
          have := ih p' (by rw [hr, h.2])
          rw [← h.1, ← this]
          simp

/-- A `findOpen` result starts with the opening fence. -/
lemma findOpen_fenceHead (l p s : List Char) (h : findOpen l = some (p, s)) :
    isFenceHead s = true := by
  induction l generalizing p with
  | nil => simp [findOpen] at h
  | cons c rest ih =>
    by_cases hf : isFenceHead (c :: rest) = true
    · simp [findOpen, hf] at h
      rw [← h.2]
      exact hf
    · simp [findOpen, hf] at h
      cases hr : findOpen rest with
      | none => simp [hr] at h
      | some v =>
        cases v with
        | mk p' s' =>
          simp [hr] at h
          exact h.2 ▸ ih p' (by rw [hr, h.2])

/-- A list starting with the fence is the fence plus its remainder. -/
lemma fenceHead_eq (s : List Char) (h : isFenceHead s = true) :
    s = '`' :: '`' :: '`' :: s.drop 3 := by
  have ht : s.take 3 = ['`', '`', '`'] := by
    simpa [isFenceHead] using h
  conv_lhs => rw [← List.take_append_drop 3 s]
  rw [ht]
  rfl

/-- A `findMatch` result partitions its input. -/
lemma findMatch_append (l p m post : List Char)
    (h : findMatch l = some (p, m, post)) : p ++ m ++ post = l := by
  unfold findMatch at h
  cases h1 : findOpen l with
  | none => rw [h1] at h; simp at h
  | some v1 =>
    cases v1 with
    | mk pre suf =>
      rw [h1] at h
      dsimp only at h
      cases h2 : findOpen (suf.drop 3) with
      | none => rw [h2] at h; simp at h
      | some v2 =>
        cases v2 with
        | mk mid suf2 =>
          rw [h2] at h
          simp at h
          obtain ⟨hp, hm, hpost⟩ := h
          have e1 : pre ++ suf = l := findOpen_append l pre suf h1
          have e2 : mid ++ suf2 = suf.drop 3 := findOpen_append _ mid suf2 h2
          have f1 : suf = '`' :: '`' :: '`' :: suf.drop 3 :=
            fenceHead_eq suf (findOpen_fenceHead l pre suf h1)
          have f2 : suf2 = '`' :: '`' :: '`' :: suf2.drop 3 :=
            fenceHead_eq suf2 (findOpen_fenceHead _ mid suf2 h2)
          subst hp hm hpost
          calc pre ++ (['`', '`', '`'] ++ mid ++ ['`', '`', '`']) ++ suf2.drop 3
              = pre ++ ('`' :: '`' :: '`' :: (mid ++ suf2)) := by
                rw [f2]; simp
            _ = pre ++ ('`' :: '`' :: '`' :: suf.drop 3) := by rw [e2]
            _ = pre ++ suf := by rw [← f1]
            _ = l := e1

/-- The parts produced by the fence split cover the whole input. -/
lemma splitFencesAux_join (fuel : Nat) (l : List Char) :
    (splitFencesAux fuel l).foldr (· ++ ·) [] = l := by
  induction fuel generalizing l with
  | zero => simp [splitFencesAux]
  | succ n ih =>
    cases hm : findMatch l with
    | none => simp [splitFencesAux, hm]
    | some v =>
      match v, hm with
      | (p, m, post), hm =>
        have := findMatch_append l p m post hm
        simp [splitFencesAux, hm, ih post]
        rw [← List.append_assoc, this]

/-- Concatenating string parts is concatenating their character
lists. -/
lemma concatParts_map_mk (parts : List (List Char)) :
    concatParts (parts.map (fun cs => String.mk cs)) =
      String.mk (parts.foldr (· ++ ·) []) := by
  induction parts with
  | nil => rfl
  | cons a rest ih =>
    show String.mk a ++ concatParts (rest.map (fun cs => String.mk cs)) = _
    rw [ih]
    rfl

mutual

/-- On a tree whose files are leaves, `countNodes` counts exactly the
`file` nodes and the non-`file` nodes. -/
lemma countNodes_eq_spec : ∀ (t : TreeNode), filesAreLeaves t = true →
    countNodes t = ((allNodes t).countP (fun n => isFileNode n),
                    (allNodes t).countP (fun n => !isFileNode n))
  | .node n .file ch, h => by
    have hch : ch = [] := by
      cases ch with
      | nil => rfl
      | cons c cs => simp [filesAreLeaves] at h
    subst hch
    simp [countNodes, allNodes, allNodesList, isFileNode, List.countP_cons]
  | .node n .folder ch, h => by
    have h' : leavesList ch = true := by simpa [filesAreLeaves] using h
    have hc := countChildren_eq_spec ch 0 1 h'
    rw [countNodes, hc]
    simp [allNodes, List.countP_cons, isFileNode, Nat.add_comm]

/-- Accumulator form of `countNodes_eq_spec` for the `forEach` loop. -/
lemma countChildren_eq_spec : ∀ (cs : List TreeNode) (f d : Nat),
    leavesList cs = true →
    countChildren cs f d = (f + (allNodesList cs).countP (fun n => isFileNode n),
                            d + (allNodesList cs).countP (fun n => !isFileNode n))
  | [], f, d, _ => by simp [countChildren, allNodesList, List.countP_nil]
  | c :: cs, f, d, h => by
    have h1 : filesAreLeaves c = true := by
      have := h
      simp [leavesList] at this
      exact this.1
    have h2 : leavesList cs = true := by
      have := h
      simp [leavesList] at this
      exact this.2
    have ih1 := countNodes_eq_spec c h1
    have ih2 := countChildren_eq_spec cs (f + (countNodes c).1)
      (d + (countNodes c).2) h2
    rw [countChildren, ih2, ih1]
    simp [allNodesList, List.countP_append, Nat.add_assoc]

end

/-! ### Claims -/

/-- C1: the claim says an `error` event is terminal and surfaces a
failure message.  In the code the `throw new Error(chunk.content)` is
caught by the inner `catch` that guards `JSON.parse`, so an `error`
chunk changes nothing, later events of the turn are still processed,
and the turn never shows `errorFallbackMessage`: at the failing input
below, the content event following the error is applied and the final
message is an ordinary answer. -/
theorem error_event_not_terminal :
    (∀ (s : String) (m : Message), applyEvent (.error s) m = m) ∧
    (handleSubmitOutcome true
      [[DataLine.event (.error "Something went wrong"),
        DataLine.event (.content "continued anyway")]]).content
      = "continued anyway" ∧
    handleSubmitOutcome true
      [[DataLine.event (.error "Something went wrong"),
        DataLine.event (.content "continued anyway")]]
      ≠ errorFallbackMessage :=
  ⟨fun _ _ => rfl, by decide, by decide⟩

/-- C2: over a streamed turn — reads of event lines followed by the
final `[DONE]` sentinel — the stored answer text is exactly the
in-order concatenation of the `content` deltas. -/
theorem stream_content_concatenation (body : List (List DataLine))
    (lastRead : List DataLine)
    (h1 : ∀ r ∈ body, DataLine.done ∉ r) (h2 : DataLine.done ∉ lastRead) :
    (processStream (body ++ [lastRead ++ [DataLine.done]])
        initialAssistantMessage).content
      = concatDeltas (body.flatten ++ lastRead) := by
  rw [processStream_append]
  show (processLines (lastRead ++ [DataLine.done]) _).content = _
  rw [show lastRead ++ [DataLine.done] = lastRead ++ DataLine.done :: [] from rfl,
    processLines_append_done,
    processLines_content_of_no_done _ _ h2,
    processStream_content_of_no_done _ _ h1,
    concatDeltas_append]
  simp [initialAssistantMessage, String.empty_append, String.append_assoc]

/-- Witness for C2 at a concrete two-read turn. -/
theorem stream_content_concatenation_witness :
    (∀ r ∈ [[DataLine.event (.content "Hello, ")],
            [DataLine.event (.content "world")]], DataLine.done ∉ r) ∧
    DataLine.done ∉ ([] : List DataLine) ∧
    (processStream ([[DataLine.event (.content "Hello, ")],
                     [DataLine.event (.content "world")]]
        ++ [([] : List DataLine) ++ [DataLine.done]])
        initialAssistantMessage).content
      = concatDeltas ([[DataLine.event (.content "Hello, ")],
                       [DataLine.event (.content "world")]].flatten
          ++ ([] : List DataLine)) :=
  ⟨by decide, by decide,
    stream_content_concatenation _ _ (by decide) (by decide)⟩

/-- C3: the chat page offers exactly the repositories whose status is
`'ready'` (same order, nothing else), so a turn can only target a
ready repository. -/
theorem chat_offers_exactly_ready (data : List Repository) :
    (∀ r, r ∈ loadRepositories data ↔ (r ∈ data ∧ r.status = "ready")) ∧
    List.Sublist (loadRepositories data) data := by
  constructor
  · intro r
    simp [loadRepositories, List.mem_filter]
  · exact List.filter_sublist data

/-- C4 counterexample: the claim says every event after the `[DONE]`
sentinel is ignored, but the `break` only leaves the `for` loop over
the current read's lines: a content event delivered in a later read is
still processed. -/
theorem done_sentinel_not_global_cex :
    (processStream [[DataLine.done], [DataLine.event (.content "late")]]
        initialAssistantMessage).content = "late" ∧
    processStream [[DataLine.done], [DataLine.event (.content "late")]]
        initialAssistantMessage
      ≠ processStream [[DataLine.done]] initialAssistantMessage := by
  decide

/-- C4 amended: after the `[DONE]` line, the remaining lines of the
same read are ignored, while reads arriving afterwards are processed
as usual. -/
theorem done_sentinel_scoped_to_read :
    (∀ (pre suf : List DataLine) (m : Message),
        processLines (pre ++ DataLine.done :: suf) m = processLines pre m) ∧
    (∀ (reads : List (List DataLine)) (m : Message),
        processStream ([DataLine.done] :: reads) m = processStream reads m) :=
  ⟨processLines_append_done, fun _ _ => rfl⟩

/-- C5 counterexample: the fixed extension table of
`getLanguageFromFile` has 12 entries covering 10 distinct language
tags — short of the claimed 15. -/
theorem language_table_below_fifteen :
    extMap.length = 12 ∧ (extMap.map Prod.snd).dedup.length = 10 ∧
    ¬ (15 ≤ (extMap.map Prod.snd).dedup.length) := by
  decide

/-- C5 amended: the table maps 12 extensions to 10 language tags, and
any missing filename or unknown extension yields the generic `'text'`
tag. -/
theorem language_table_spec :
    extMap.length = 12 ∧ (extMap.map Prod.snd).dedup.length = 10 ∧
    getLanguageFromFile none = "text" ∧
    (∀ f : String, extMap.lookup (extOf f) = none →
        getLanguageFromFile (some f) = "text") := by
  refine ⟨by decide, by decide, rfl, fun f h => ?_⟩
  unfold getLanguageFromFile
  by_cases hf : f = ""
  · simp [hf]
  · simp [hf, h]

/-- Witness for C5 (amended) at a filename with an unknown
extension. -/
theorem language_table_spec_witness :
    extMap.lookup (extOf "notes.xyz") = none ∧
    getLanguageFromFile (some "notes.xyz") = "text" :=
  ⟨by decide, language_table_spec.2.2.2 "notes.xyz" (by decide)⟩

/-- C6: a turn without citation events leaves `citations` unset, and
the rendered bubble contains no `FileReference` chip. -/
theorem no_citation_events_no_file_references (reads : List (List DataLine))
    (h : reads.all (fun r => r.all (fun l => !isCitationLine l)) = true) :
    (processStream reads initialAssistantMessage).citations = none ∧
    (renderMessageBubble (processStream reads initialAssistantMessage)).all
      (fun b => !isFileRefBlock b) = true := by
  have hc : (processStream reads initialAssistantMessage).citations = none :=
    processStream_citations_of_no_citation reads _ h
  refine ⟨hc, ?_⟩
  unfold renderMessageBubble
  rw [hc]
  rw [List.all_append, List.all_append]
  have h1 := renderContent_no_fileRef
    (processStream reads initialAssistantMessage).content
  have h2 : (renderCitations none).all (fun b => !isFileRefBlock b) = true := rfl
  have h3 : (renderRisk (processStream reads initialAssistantMessage).risk).all
      (fun b => !isFileRefBlock b) = true := by
    cases (processStream reads initialAssistantMessage).risk <;>
      simp [renderRisk, isFileRefBlock]
  rw [h1, h2, h3]
  rfl

/-- Witness for C6 at a concrete citation-free turn. -/
theorem no_citation_events_witness :
    ([[DataLine.event (.content "hi")], [DataLine.done]].all
        (fun r => r.all (fun l => !isCitationLine l)) = true) ∧
    ((processStream [[DataLine.event (.content "hi")], [DataLine.done]]
        initialAssistantMessage).citations = none ∧
      (renderMessageBubble (processStream
          [[DataLine.event (.content "hi")], [DataLine.done]]
          initialAssistantMessage)).all (fun b => !isFileRefBlock b) = true) :=
  ⟨by decide, no_citation_events_no_file_references _ (by decide)⟩

/-- C7: a `risk` chunk only sets the `risk` field — text and citations
are untouched — and the verdict renders as one structured block placed
after every content and citation block, never interleaved. -/
theorem risk_event_frame_and_placement (m : Message) (r : Risk) :
    (applyEvent (.risk r) m).content = m.content ∧
    (applyEvent (.risk r) m).citations = m.citations ∧
    (applyEvent (.risk r) m).risk = some r ∧
    renderMessageBubble (applyEvent (.risk r) m)
      = (renderContent m.content ++ renderCitations m.citations)
        ++ [Block.riskBlock r.level r.description] ∧
    (renderContent m.content ++ renderCitations m.citations).all
      (fun b => !isRiskBlock b) = true := by
  refine ⟨rfl, rfl, rfl, ?_, ?_⟩
  · unfold renderMessageBubble
    simp [applyEvent, renderRisk]
  · rw [List.all_append, renderContent_no_risk, renderCitations_no_risk]
    rfl

/-- C8: splitting an answer on the code-fence regex (with its capture
group) loses nothing: the parts concatenate back to the original
string. -/
theorem code_fence_split_lossless (s : String) :
    concatParts (splitCodeFences s) = s := by
  unfold splitCodeFences
  rw [concatParts_map_mk, splitFencesAux_join]

/-- C9: a successful delete removes exactly the entries with the given
id (the rest keep their order); a failed delete leaves the list
unchanged. -/
theorem delete_repo_exact (rs : List Repository) (i : Int) :
    List.Sublist (deleteRepo i true rs) rs ∧
    (∀ r, r ∈ deleteRepo i true rs ↔ (r ∈ rs ∧ r.id ≠ i)) ∧
    deleteRepo i false rs = rs := by
  refine ⟨?_, ?_, rfl⟩
  · show List.Sublist (rs.filter _) rs
    exact List.filter_sublist rs
  · intro r
    simp [deleteRepo, List.mem_filter]

/-- C10 counterexample: the claim counts all nodes of the tree, but
`countNodes` never descends below a `file` node, so a file node with a
folder child is counted `(1, 0)` while the tree holds one file node
and one non-file node. -/
theorem count_nodes_skips_file_children_cex :
    countNodes cexFileTree = (1, 0) ∧
    ((allNodes cexFileTree).countP (fun n => isFileNode n),
     (allNodes cexFileTree).countP (fun n => !isFileNode n)) = (1, 1) ∧
    countNodes cexFileTree
      ≠ ((allNodes cexFileTree).countP (fun n => isFileNode n),
         (allNodes cexFileTree).countP (fun n => !isFileNode n)) := by
  decide

/-- C10 amended: on every tree whose `file` nodes are leaves,
`countNodes` returns exactly the number of `file` nodes and the number
of non-`file` nodes (root included). -/
theorem count_nodes_counts_nodes (t : TreeNode) (h : filesAreLeaves t = true) :
    countNodes t = ((allNodes t).countP (fun n => isFileNode n),
                    (allNodes t).countP (fun n => !isFileNode n)) :=
  countNodes_eq_spec t h

/-- Witness for C10 (amended) at a concrete well-formed tree. -/
theorem count_nodes_counts_nodes_witness :
    filesAreLeaves sampleTree = true ∧
    countNodes sampleTree
      = ((allNodes sampleTree).countP (fun n => isFileNode n),
         (allNodes sampleTree).countP (fun n => !isFileNode n)) :=
  ⟨by decide, count_nodes_counts_nodes sampleTree (by decide)⟩
